import Mathlib

set_option linter.unusedVariables false

/-!
Verification of the alignment pipeline of the open-align repository
(`src/open_align/core.py`).

The development shallowly embeds the pure computational content of the
pipeline:

* `commonOverlapRect` embeds `_common_overlap_rect` together with the
  OpenCV primitives it calls (`cv.bitwise_and`, `cv.erode` with the
  rectangular structuring element and the default border handling,
  `cv.connectedComponents` with 8-connectivity, and the bounding-box
  computation via `np.where` / min / max).
* `warpAffineLinear` / `warpAffineNearest` embed `cv.warpAffine` with
  `INTER_LINEAR` resp. `INTER_NEAREST` sampling and constant border fill,
  over exact rational coordinates.
* `matchOrb` embeds `_match_orb` (brute-force Hamming 2-nearest-neighbour
  search followed by Lowe's ratio test).
* `alignModel` embeds the control flow of `align`, with the per-image
  outcomes of the OpenCV detector / estimator supplied as oracles.

Pixels are natural numbers (`uint8` values); image grids are total
functions read only at in-bounds coordinates.
-/

namespace OpenAlign

/-- A pixel grid: `m x y` is the value at column `x`, row `y`.  A grid of
size `W × H` is read only at `x < W`, `y < H`. -/
abbrev Msk := ℕ → ℕ → ℕ

/-- `cv.bitwise_and`: bitwise AND of the 8-bit pixel values. -/
def bitwiseAnd (a b : Msk) : Msk := fun x y => Nat.land (a x y) (b x y)

/-- `common = masks[0].copy(); for m in masks[1:]: common = cv.bitwise_and(common, m)`
(core.py lines 72-74). -/
def andFold (m0 : Msk) (rest : List Msk) : Msk := rest.foldl bitwiseAnd m0

/-- In-bounds samples of the `k × k` rectangular structuring element
(`cv.getStructuringElement(cv.MORPH_RECT, (erode, erode))`) anchored at
its centre `(k / 2, k / 2)` (the OpenCV default anchor `(-1, -1)`).
Out-of-bounds positions are dropped: `cv.erode`'s default border value is
`morphologyDefaultBorderValue() = +inf`, so positions outside the image
never contribute to the minimum. -/
def windowVals (W H k : ℕ) (m : Msk) (x y : ℕ) : List ℕ :=
  (List.range k).flatMap fun dy =>
    (List.range k).filterMap fun dx =>
      let xi : ℤ := (x : ℤ) + (dx : ℤ) - ((k / 2 : ℕ) : ℤ)
      let yi : ℤ := (y : ℤ) + (dy : ℤ) - ((k / 2 : ℕ) : ℤ)
      if 0 ≤ xi ∧ xi < (W : ℤ) ∧ 0 ≤ yi ∧ yi < (H : ℤ) then
        some (m xi.toNat yi.toNat)
      else none

/-- `cv.erode(common, k, iterations=1)`: pixelwise minimum over the
structuring-element window.  For in-bounds `(x, y)` the anchor sample
`m x y` itself lies in the window, so seeding the fold with it computes
exactly the minimum of the in-bounds window. -/
def erodeRect (W H k : ℕ) (m : Msk) : Msk :=
  fun x y => (windowVals W H k m x y).foldl min (m x y)

/-- The combined mask after the optional erosion step
(core.py lines 72-79): AND of all masks, eroded when `erode > 0`. -/
def processedMask (W H : ℕ) (m0 : Msk) (rest : List Msk) (k : ℕ) : Msk :=
  if 0 < k then erodeRect W H k (andFold m0 rest) else andFold m0 rest

/-- Foreground test of the binarised mask `(common > 0)` restricted to the
grid (core.py line 82). -/
def fgB (W H : ℕ) (m : Msk) (p : ℕ × ℕ) : Bool :=
  decide (p.1 < W) && decide (p.2 < H) && decide (0 < m p.1 p.2)

/-- All pixel coordinates `(x, y)` of a `W × H` grid in raster-scan order
(row by row), the scan order of OpenCV connected-component labelling. -/
def pixList (W H : ℕ) : List (ℕ × ℕ) :=
  (List.range H).flatMap fun y => (List.range W).map fun x => (x, y)

/-- 8-connectivity, the default of `cv.connectedComponents`: distinct
pixels at Chebyshev distance at most 1. -/
def adjB (p q : ℕ × ℕ) : Bool :=
  decide (p ≠ q) && decide (p.1 ≤ q.1 + 1) && decide (q.1 ≤ p.1 + 1) &&
    decide (p.2 ≤ q.2 + 1) && decide (q.2 ≤ p.2 + 1)

/-- One round of neighbourhood expansion of a pixel set inside the
foreground of `m`. -/
def stepR (W H : ℕ) (m : Msk) (S : List (ℕ × ℕ)) : List (ℕ × ℕ) :=
  S ++ (pixList W H).filter fun q =>
    fgB W H m q && S.any (fun p => adjB p q) && !(decide (q ∈ S))

/-- Pixels 8-connected to `p` within the foreground of `m`.  `W * H`
expansion rounds saturate the component: a shortest connecting path
visits each pixel of the grid at most once. -/
def reachList (W H : ℕ) (m : Msk) (p : ℕ × ℕ) : List (ℕ × ℕ) :=
  (stepR W H m)^[W * H] [p]

/-- Decidable connectivity between pixels. -/
def reachB (W H : ℕ) (m : Msk) (p q : ℕ × ℕ) : Bool :=
  decide (q ∈ reachList W H m p)

/-- Strict raster-scan order: `q` is scanned before `p`. -/
def rasterLtB (q p : ℕ × ℕ) : Bool :=
  decide (q.2 < p.2) || (decide (q.2 = p.2) && decide (q.1 < p.1))

/-- A component representative: a foreground pixel not connected to any
foreground pixel scanned before it.  Labels `1 … num-1` of
`cv.connectedComponents` correspond to the representatives in raster
order; the theorems below never depend on the order itself. -/
def isRepB (W H : ℕ) (m : Msk) (p : ℕ × ℕ) : Bool :=
  fgB W H m p &&
    (pixList W H).all fun q => !(fgB W H m q && rasterLtB q p && reachB W H m q p)

/-- The component representatives in raster order; `num <= 1` in the
source corresponds to this list being empty. -/
def repsList (W H : ℕ) (m : Msk) : List (ℕ × ℕ) :=
  (pixList W H).filter (isRepB W H m)

/-- The connected component containing `p`: the pixels counted by
`(labels == lbl).sum()` and selected by `labels == best_label`. -/
def compList (W H : ℕ) (m : Msk) (p : ℕ × ℕ) : List (ℕ × ℕ) :=
  (pixList W H).filter fun q => fgB W H m q && reachB W H m p q

/-- `best_label, best_count = 1, 0; for lbl in range(1, num):
cnt = (labels == lbl).sum(); if cnt > best_count: update`
(core.py lines 86-90), with labels identified with representatives. -/
def bestFold (W H : ℕ) (m : Msk) : (ℕ × ℕ) × ℕ → List (ℕ × ℕ) → (ℕ × ℕ) × ℕ
  | acc, [] => acc
  | (b, c), r :: rs =>
    if (compList W H m r).length > c then
      bestFold W H m (r, (compList W H m r).length) rs
    else
      bestFold W H m (b, c) rs

/-- Component selection and bounding-box computation of
`_common_overlap_rect` (core.py lines 82-100) on an already combined and
eroded mask:  label the foreground, fail when there is none, pick the
largest component, fail when it is empty (dead in practice), and return
the bounding rectangle `(x0, y0, x1 - x0, y1 - y0)` computed from the
minima and maxima of the component's coordinates. -/
def overlapCore (W H : ℕ) (m : Msk) : Except String (ℕ × ℕ × ℕ × ℕ) :=
  match repsList W H m with
  | [] => Except.error "No common overlap found across images."
  | r0 :: rs =>
    match compList W H m (bestFold W H m (r0, 0) (r0 :: rs)).1 with
    | [] => Except.error "Common overlap empty after processing."
    | c0 :: cs =>
      Except.ok
        (((c0 :: cs).map Prod.fst).foldl min c0.1,
         ((c0 :: cs).map Prod.snd).foldl min c0.2,
         ((c0 :: cs).map Prod.fst).foldl max c0.1 + 1 -
           ((c0 :: cs).map Prod.fst).foldl min c0.1,
         ((c0 :: cs).map Prod.snd).foldl max c0.2 + 1 -
           ((c0 :: cs).map Prod.snd).foldl min c0.2)

/-- `_common_overlap_rect(masks, erode)` (core.py lines 61-100) for masks
of common size `W × H`. -/
def commonOverlapRect (W H : ℕ) (masks : List Msk) (erode : ℕ) :
    Except String (ℕ × ℕ × ℕ × ℕ) :=
  match masks with
  | [] => Except.error "No masks provided."
  | m0 :: rest => overlapCore W H (processedMask W H m0 rest erode)

/-- Whether an `Except` result is the error case (a raised exception in
the source). -/
def isErr {ε α : Type} : Except ε α → Bool
  | Except.error _ => true
  | Except.ok _ => false

/-! ### Elementary fold and list lemmas -/

lemma foldl_min_le_init (l : List ℕ) (a : ℕ) : l.foldl min a ≤ a := by
  induction l generalizing a with
  | nil => exact le_rfl
  | cons x xs ih => exact le_trans (ih (min a x)) (min_le_left a x)

lemma foldl_min_le {l : List ℕ} {a b : ℕ} (h : b = a ∨ b ∈ l) : l.foldl min a ≤ b := by
  induction l generalizing a with
  | nil =>
    rcases h with rfl | h
    · exact le_rfl
    · cases h
  | cons x xs ih =>
    rcases h with rfl | h
    · exact le_trans (foldl_min_le_init xs (min b x)) (min_le_left b x)
    · rcases List.mem_cons.mp h with rfl | h
      · exact le_trans (foldl_min_le_init xs (min a b)) (min_le_right a b)
      · exact ih (Or.inr h)

lemma le_foldl_min {l : List ℕ} {a c : ℕ} (h1 : c ≤ a) (h2 : ∀ b ∈ l, c ≤ b) :
    c ≤ l.foldl min a := by
  induction l generalizing a with
  | nil => exact h1
  | cons x xs ih =>
    exact ih (le_min h1 (h2 x (List.mem_cons_self x xs)))
      (fun b hb => h2 b (List.mem_cons_of_mem x hb))

lemma init_le_foldl_max (l : List ℕ) (a : ℕ) : a ≤ l.foldl max a := by
  induction l generalizing a with
  | nil => exact le_rfl
  | cons x xs ih => exact le_trans (le_max_left a x) (ih (max a x))

lemma le_foldl_max {l : List ℕ} {a b : ℕ} (h : b = a ∨ b ∈ l) : b ≤ l.foldl max a := by
  induction l generalizing a with
  | nil =>
    rcases h with rfl | h
    · exact le_rfl
    · cases h
  | cons x xs ih =>
    rcases h with rfl | h
    · exact le_trans (le_max_left b x) (init_le_foldl_max xs (max b x))
    · rcases List.mem_cons.mp h with rfl | h
      · exact le_trans (le_max_right a b) (init_le_foldl_max xs (max a b))
      · exact ih (Or.inr h)

lemma foldl_max_le {l : List ℕ} {a c : ℕ} (h1 : a ≤ c) (h2 : ∀ b ∈ l, b ≤ c) :
    l.foldl max a ≤ c := by
  induction l generalizing a with
  | nil => exact h1
  | cons x xs ih =>
    exact ih (max_le h1 (h2 x (List.mem_cons_self x xs)))
      (fun b hb => h2 b (List.mem_cons_of_mem x hb))

lemma mem_pixList {W H : ℕ} {p : ℕ × ℕ} : p ∈ pixList W H ↔ p.1 < W ∧ p.2 < H := by
  cases p with
  | mk a b =>
    simp only [pixList, List.mem_flatMap, List.mem_map, List.mem_range]
    constructor
    · rintro ⟨y, hy, x, hx, hxy⟩
      cases hxy
      exact ⟨hx, hy⟩
    · rintro ⟨ha, hb⟩
      exact ⟨b, hb, a, ha, rfl⟩

lemma pixList_nodup (W H : ℕ) : (pixList W H).Nodup := by
  unfold pixList
  refine List.nodup_flatMap.mpr ⟨fun y _ => ?_, ?_⟩
  · exact List.Nodup.map (fun a b h => (Prod.mk.inj h).1) (List.nodup_range W)
  · refine List.Pairwise.imp ?_ (List.pairwise_lt_range H)
    intro y1 y2 hlt a h1 h2
    rcases List.mem_map.mp h1 with ⟨x1, _, rfl⟩
    rcases List.mem_map.mp h2 with ⟨x2, _, hx⟩
    exact Nat.ne_of_lt hlt (Prod.mk.inj hx).2.symm

lemma filter_eq_singleton {α : Type} {l : List α} {p : α → Bool} {a : α}
    (hnd : l.Nodup) (ha : a ∈ l) (hpa : p a = true)
    (honly : ∀ b ∈ l, p b = true → b = a) : l.filter p = [a] := by
  induction l with
  | nil => cases ha
  | cons x xs ih =>
    rcases List.nodup_cons.mp hnd with ⟨hx, hxs⟩
    rcases List.mem_cons.mp ha with rfl | ha'
    · rw [List.filter_cons_of_pos hpa]
      have : xs.filter p = [] := by
        rw [List.filter_eq_nil_iff]
        intro b hb hpb
        exact hx ((honly b (List.mem_cons_of_mem a hb) hpb) ▸ hb)
      rw [this]
    · have hxa : x ≠ a := fun h => hx (h ▸ ha')
      have hpx : p x = false := by
        cases hcase : p x with
        | false => rfl
        | true => exact absurd (honly x (List.mem_cons_self x xs) hcase) hxa
      rw [List.filter_cons_of_neg (by simp [hpx])]
      exact ih hxs ha' (fun b hb hpb => honly b (List.mem_cons_of_mem x hb) hpb)

lemma exists_min_on {α : Type} (f : α → ℕ) (l : List α) (h : l ≠ []) :
    ∃ a ∈ l, ∀ b ∈ l, f a ≤ f b := by
  induction l with
  | nil => exact absurd rfl h
  | cons x xs ih =>
    rcases xs with _ | ⟨y, ys⟩
    · exact ⟨x, List.mem_cons_self x [], by
        intro b hb
        rcases List.mem_cons.mp hb with rfl | hb
        · exact le_rfl
        · cases hb⟩
    · rcases ih (by simp) with ⟨a, ha, hmin⟩
      by_cases hc : f x ≤ f a
      · refine ⟨x, List.mem_cons_self x _, fun b hb => ?_⟩
        rcases List.mem_cons.mp hb with rfl | hb
        · exact le_rfl
        · exact le_trans hc (hmin b hb)
      · refine ⟨a, List.mem_cons_of_mem x ha, fun b hb => ?_⟩
        rcases List.mem_cons.mp hb with rfl | hb
        · exact le_of_lt (lt_of_not_le hc)
        · exact hmin b hb

/-- Raster-scan rank of a pixel. -/
def rkey (W : ℕ) (p : ℕ × ℕ) : ℕ := p.2 * W + p.1

lemma rasterLt_key {W : ℕ} {q p : ℕ × ℕ} (hq : q.1 < W) (h : rasterLtB q p = true) :
    rkey W q < rkey W p := by
  unfold rasterLtB at h
  unfold rkey
  rcases Bool.or_eq_true_iff.mp h with h1 | h2
  · have hlt : q.2 < p.2 := of_decide_eq_true h1
    calc q.2 * W + q.1 < q.2 * W + W := by omega
    _ = (q.2 + 1) * W := by ring
    _ ≤ p.2 * W := Nat.mul_le_mul_right W hlt
    _ ≤ p.2 * W + p.1 := Nat.le_add_right _ _
  · rcases Bool.and_eq_true_iff.mp h2 with ⟨he, hl⟩
    have he' : q.2 = p.2 := of_decide_eq_true he
    have hl' : q.1 < p.1 := of_decide_eq_true hl
    rw [he']
    omega

lemma fgB_eq_true {W H : ℕ} {m : Msk} {p : ℕ × ℕ} :
    fgB W H m p = true ↔ p.1 < W ∧ p.2 < H ∧ 0 < m p.1 p.2 := by
  simp [fgB, and_assoc]

/-! ### Reachability lemmas -/

lemma mem_stepR_self {W H : ℕ} {m : Msk} {S : List (ℕ × ℕ)} {a : ℕ × ℕ}
    (h : a ∈ S) : a ∈ stepR W H m S :=
  List.mem_append_left _ h

lemma reach_iter_le {W H : ℕ} {m : Msk} {p a : ℕ × ℕ} {j k : ℕ} (hjk : j ≤ k)
    (h : a ∈ (stepR W H m)^[j] [p]) : a ∈ (stepR W H m)^[k] [p] := by
  induction k with
  | zero =>
    rw [Nat.le_zero.mp hjk] at h
    exact h
  | succ n ih =>
    rcases Nat.lt_or_ge j (n + 1) with hlt | hge
    · rw [Function.iterate_succ_apply']
      exact mem_stepR_self (ih (Nat.lt_succ_iff.mp hlt))
    · rw [Nat.le_antisymm hjk hge] at h
      exact h

lemma reach_self {W H : ℕ} {m : Msk} {p : ℕ × ℕ} : p ∈ reachList W H m p :=
  reach_iter_le (Nat.zero_le _) (by simp)

lemma mem_stepR_of_adj {W H : ℕ} {m : Msk} {S : List (ℕ × ℕ)} {a q : ℕ × ℕ}
    (ha : a ∈ S) (hadj : adjB a q = true) (hq : fgB W H m q = true) :
    q ∈ stepR W H m S := by
  by_cases hin : q ∈ S
  · exact mem_stepR_self hin
  · apply List.mem_append_right
    rw [List.mem_filter]
    refine ⟨mem_pixList.mpr ⟨(fgB_eq_true.mp hq).1, (fgB_eq_true.mp hq).2.1⟩, ?_⟩
    simp only [hq, Bool.true_and, Bool.and_eq_true, List.any_eq_true, Bool.not_eq_true',
      decide_eq_false_iff_not]
    exact ⟨⟨a, ha, hadj⟩, hin⟩

lemma adj_step_right {a b : ℕ} : adjB (a, b) (a + 1, b) = true := by
  simp [adjB, Prod.ext_iff]
  omega

lemma adj_step_down {a b : ℕ} : adjB (a, b) (a, b + 1) = true := by
  simp [adjB, Prod.ext_iff]
  omega

lemma full_reach_row {W H : ℕ} {m : Msk}
    (hall : ∀ x, x < W → ∀ y, y < H → 0 < m x y) (hH : 0 < H) :
    ∀ x, x < W → (x, 0) ∈ (stepR W H m)^[x] [(0, 0)] := by
  intro x
  induction x with
  | zero => simp
  | succ n ih =>
    intro hn
    rw [Function.iterate_succ_apply']
    exact mem_stepR_of_adj (ih (by omega)) adj_step_right
      (fgB_eq_true.mpr ⟨hn, hH, hall _ hn _ hH⟩)

lemma full_reach_cell {W H : ℕ} {m : Msk}
    (hall : ∀ x, x < W → ∀ y, y < H → 0 < m x y) :
    ∀ y, y < H → ∀ x, x < W → (x, y) ∈ (stepR W H m)^[x + y] [(0, 0)] := by
  intro y
  induction y with
  | zero =>
    intro hH x hx
    exact full_reach_row hall hH x hx
  | succ n ih =>
    intro hn x hx
    have : x + (n + 1) = (x + n) + 1 := by omega
    rw [this, Function.iterate_succ_apply']
    exact mem_stepR_of_adj (ih (by omega) x hx) adj_step_down
      (fgB_eq_true.mpr ⟨hx, hn, hall _ hx _ hn⟩)

lemma add_lt_imp_le_mul {x y W H : ℕ} (hx : x < W) (hy : y < H) : x + y ≤ W * H := by
  obtain ⟨w, rfl⟩ : ∃ w, W = w + 1 := ⟨W - 1, by omega⟩
  obtain ⟨h, rfl⟩ : ∃ h, H = h + 1 := ⟨H - 1, by omega⟩
  have hexp : (w + 1) * (h + 1) = w * h + (w + h + 1) := by ring
  rw [hexp]
  have h1 : x + y ≤ w + h + 1 := by omega
  exact le_trans h1 (Nat.le_add_left _ _)

lemma full_reachB {W H : ℕ} {m : Msk}
    (hall : ∀ x, x < W → ∀ y, y < H → 0 < m x y)
    {x y : ℕ} (hx : x < W) (hy : y < H) : reachB W H m (0, 0) (x, y) = true := by
  unfold reachB reachList
  exact decide_eq_true (reach_iter_le (add_lt_imp_le_mul hx hy) (full_reach_cell hall y hy x hx))

/-! ### Full-grid masks -/

lemma reps_ne_nil {W H : ℕ} {m : Msk} {x y : ℕ} (hx : x < W) (hy : y < H)
    (hv : 0 < m x y) : repsList W H m ≠ [] := by
  have hfg : fgB W H m (x, y) = true := fgB_eq_true.mpr ⟨hx, hy, hv⟩
  have hmemf : (x, y) ∈ (pixList W H).filter (fgB W H m) :=
    List.mem_filter.mpr ⟨mem_pixList.mpr ⟨hx, hy⟩, hfg⟩
  rcases exists_min_on (rkey W) _ (List.ne_nil_of_mem hmemf) with ⟨a, ha, hmin⟩
  have hafg : fgB W H m a = true := (List.mem_filter.mp ha).2
  have harep : isRepB W H m a = true := by
    unfold isRepB
    rw [Bool.and_eq_true]
    refine ⟨hafg, List.all_eq_true.mpr fun q hq => ?_⟩
    rw [Bool.not_eq_true']
    cases hcase : (fgB W H m q && rasterLtB q a && reachB W H m q a) with
    | false => rfl
    | true =>
      exfalso
      rcases Bool.and_eq_true_iff.mp (Bool.and_eq_true_iff.mp hcase).1 with ⟨hqfg, hqlt⟩
      have hqmem : q ∈ (pixList W H).filter (fgB W H m) :=
        List.mem_filter.mpr
          ⟨mem_pixList.mpr ⟨(fgB_eq_true.mp hqfg).1, (fgB_eq_true.mp hqfg).2.1⟩, hqfg⟩
      exact absurd (rasterLt_key (fgB_eq_true.mp hqfg).1 hqlt) (not_lt.mpr (hmin q hqmem))
  exact List.ne_nil_of_mem (List.mem_filter.mpr ⟨(List.mem_filter.mp ha).1, harep⟩)

lemma rasterLtB_origin {p : ℕ × ℕ} (h : p ≠ (0, 0)) : rasterLtB (0, 0) p = true := by
  unfold rasterLtB
  rcases Nat.eq_zero_or_pos p.2 with h2 | h2
  · have h1 : 0 < p.1 := by
      rcases Nat.eq_zero_or_pos p.1 with h1 | h1
      · exact absurd (Prod.ext h1 h2) h
      · exact h1
    simp [h1, h2]
  · simp [h2]

lemma reps_full {W H : ℕ} {m : Msk} (hW : 0 < W) (hH : 0 < H)
    (hall : ∀ x, x < W → ∀ y, y < H → 0 < m x y) : repsList W H m = [(0, 0)] := by
  unfold repsList
  apply filter_eq_singleton (pixList_nodup W H) (mem_pixList.mpr ⟨hW, hH⟩)
  · unfold isRepB
    rw [Bool.and_eq_true]
    refine ⟨fgB_eq_true.mpr ⟨hW, hH, hall 0 hW 0 hH⟩, List.all_eq_true.mpr fun q hq => ?_⟩
    rw [Bool.not_eq_true']
    cases hcase : (fgB W H m q && rasterLtB q (0, 0) && reachB W H m q (0, 0)) with
    | false => rfl
    | true =>
      exfalso
      have hqlt := (Bool.and_eq_true_iff.mp (Bool.and_eq_true_iff.mp hcase).1).2
      unfold rasterLtB at hqlt
      simp at hqlt
  · intro b hb hrep
    by_contra hne
    rcases Bool.and_eq_true_iff.mp hrep with ⟨hbfg, hball⟩
    have hb1 := mem_pixList.mp hb
    have h00 : fgB W H m (0, 0) = true := fgB_eq_true.mpr ⟨hW, hH, hall 0 hW 0 hH⟩
    have hcond := List.all_eq_true.mp hball (0, 0) (mem_pixList.mpr ⟨hW, hH⟩)
    rw [Bool.not_eq_true'] at hcond
    rw [h00, rasterLtB_origin hne, full_reachB hall hb1.1 hb1.2] at hcond
    simp at hcond

lemma comp_full {W H : ℕ} {m : Msk}
    (hall : ∀ x, x < W → ∀ y, y < H → 0 < m x y) :
    compList W H m (0, 0) = pixList W H := by
  unfold compList
  apply List.filter_eq_self.mpr
  intro q hq
  have hb := mem_pixList.mp hq
  rw [fgB_eq_true.mpr ⟨hb.1, hb.2, hall _ hb.1 _ hb.2⟩]
  rw [full_reachB hall hb.1 hb.2]
  rfl

lemma overlapCore_full {W H : ℕ} {m : Msk} (hW : 0 < W) (hH : 0 < H)
    (hall : ∀ x, x < W → ∀ y, y < H → 0 < m x y) :
    overlapCore W H m = Except.ok (0, 0, W, H) := by
  have hreps := reps_full hW hH hall
  have hbest : (bestFold W H m ((0, 0), 0) [(0, 0)]).1 = (0, 0) := by
    simp only [bestFold]
    rw [apply_ite Prod.fst]
    simp
  have hcomp := comp_full hall
  have hmem00 : (0, 0) ∈ pixList W H := mem_pixList.mpr ⟨hW, hH⟩
  unfold overlapCore
  split
  · next heq =>
    rw [hreps] at heq
    cases heq
  · next r0 rs heq =>
    rw [hreps] at heq
    injection heq with h1 h2
    subst h1
    subst h2
    rw [hbest, hcomp]
    split
    · next heq2 =>
      rw [heq2] at hmem00
      cases hmem00
    · next c0 cs heq2 =>
      rw [heq2] at hmem00
      have hbnd : ∀ q ∈ c0 :: cs, q.1 < W ∧ q.2 < H := by
        intro q hq
        exact mem_pixList.mp (heq2 ▸ hq)
      have hx0 : ((c0 :: cs).map Prod.fst).foldl min c0.1 = 0 :=
        Nat.le_zero.mp (foldl_min_le (Or.inr (List.mem_map.mpr ⟨(0, 0), hmem00, rfl⟩)))
      have hy0 : ((c0 :: cs).map Prod.snd).foldl min c0.2 = 0 :=
        Nat.le_zero.mp (foldl_min_le (Or.inr (List.mem_map.mpr ⟨(0, 0), hmem00, rfl⟩)))
      have hW1 : (W - 1, 0) ∈ c0 :: cs := by
        rw [← heq2]
        exact mem_pixList.mpr ⟨by omega, hH⟩
      have hH1 : (0, H - 1) ∈ c0 :: cs := by
        rw [← heq2]
        exact mem_pixList.mpr ⟨hW, by omega⟩
      have hxmax : ((c0 :: cs).map Prod.fst).foldl max c0.1 = W - 1 := by
        apply Nat.le_antisymm
        · apply foldl_max_le
          · have := (hbnd c0 (List.mem_cons_self c0 cs)).1
            omega
          · intro b hb
            rcases List.mem_map.mp hb with ⟨q, hq, rfl⟩
            have := (hbnd q hq).1
            omega
        · exact le_foldl_max (Or.inr (List.mem_map.mpr ⟨(W - 1, 0), hW1, rfl⟩))
      have hymax : ((c0 :: cs).map Prod.snd).foldl max c0.2 = H - 1 := by
        apply Nat.le_antisymm
        · apply foldl_max_le
          · have := (hbnd c0 (List.mem_cons_self c0 cs)).2
            omega
          · intro b hb
            rcases List.mem_map.mp hb with ⟨q, hq, rfl⟩
            have := (hbnd q hq).2
            omega
        · exact le_foldl_max (Or.inr (List.mem_map.mpr ⟨(0, H - 1), hH1, rfl⟩))
      rw [hx0, hy0, hxmax, hymax]
      have hw1 : W - 1 + 1 = W := by omega
      rw [hw1]
      have hh1 : H - 1 + 1 = H := by omega
      rw [hh1]
      simp

lemma andFold_all255 {W H : ℕ} {m0 : Msk} {rest : List Msk}
    (h0 : ∀ x, x < W → ∀ y, y < H → m0 x y = 255)
    (hr : ∀ mm ∈ rest, ∀ x, x < W → ∀ y, y < H → mm x y = 255) :
    ∀ x, x < W → ∀ y, y < H → andFold m0 rest x y = 255 := by
  induction rest generalizing m0 with
  | nil => exact h0
  | cons m1 ms ih =>
    have hstep : ∀ x, x < W → ∀ y, y < H → bitwiseAnd m0 m1 x y = 255 := by
      intro x hx y hy
      unfold bitwiseAnd
      rw [h0 x hx y hy, hr m1 (List.mem_cons_self m1 ms) x hx y hy]
      decide
    exact ih hstep (fun mm hmm => hr mm (List.mem_cons_of_mem m1 hmm))

lemma windowVals_all255 {W H k : ℕ} {m : Msk}
    (h : ∀ x, x < W → ∀ y, y < H → m x y = 255) (x y : ℕ) :
    ∀ v ∈ windowVals W H k m x y, v = 255 := by
  intro v hv
  unfold windowVals at hv
  rcases List.mem_flatMap.mp hv with ⟨dy, _, hdy⟩
  rcases List.mem_filterMap.mp hdy with ⟨dx, _, hdx⟩
  by_cases hc : 0 ≤ (x : ℤ) + (dx : ℤ) - ((k / 2 : ℕ) : ℤ) ∧
      (x : ℤ) + (dx : ℤ) - ((k / 2 : ℕ) : ℤ) < (W : ℤ) ∧
      0 ≤ (y : ℤ) + (dy : ℤ) - ((k / 2 : ℕ) : ℤ) ∧
      (y : ℤ) + (dy : ℤ) - ((k / 2 : ℕ) : ℤ) < (H : ℤ)
  · rw [if_pos hc] at hdx
    obtain ⟨h1, h2, h3, h4⟩ := hc
    have hxw : ((x : ℤ) + (dx : ℤ) - ((k / 2 : ℕ) : ℤ)).toNat < W := by omega
    have hyh : ((y : ℤ) + (dy : ℤ) - ((k / 2 : ℕ) : ℤ)).toNat < H := by omega
    rw [← Option.some_inj.mp hdx]
    exact h _ hxw _ hyh
  · rw [if_neg hc] at hdx
    cases hdx

lemma erode_all255 {W H k : ℕ} {m : Msk}
    (h : ∀ x, x < W → ∀ y, y < H → m x y = 255) :
    ∀ x, x < W → ∀ y, y < H → erodeRect W H k m x y = 255 := by
  intro x hx y hy
  unfold erodeRect
  apply Nat.le_antisymm
  · exact le_of_le_of_eq (foldl_min_le (Or.inl rfl)) (h x hx y hy)
  · apply le_foldl_min
    · exact le_of_eq (h x hx y hy).symm
    · intro b hb
      exact le_of_eq (windowVals_all255 h x y b hb).symm

lemma processedMask_all255 {W H k : ℕ} {m0 : Msk} {rest : List Msk}
    (h0 : ∀ x, x < W → ∀ y, y < H → m0 x y = 255)
    (hr : ∀ mm ∈ rest, ∀ x, x < W → ∀ y, y < H → mm x y = 255) :
    ∀ x, x < W → ∀ y, y < H → processedMask W H m0 rest k x y = 255 := by
  intro x hx y hy
  unfold processedMask
  by_cases hk : 0 < k
  · rw [if_pos hk]
    exact erode_all255 (andFold_all255 h0 hr) x hx y hy
  · rw [if_neg hk]
    exact andFold_all255 h0 hr x hx y hy

/-- Shared helper: on fully valid masks `_common_overlap_rect` returns the
full canvas `(0, 0, W, H)` for EVERY erosion radius, because the erosion
step cannot shrink an all-255 mask (out-of-image window positions are
ignored by `cv.erode`'s default border handling). -/
lemma overlap_all255 {W H : ℕ} (hW : 0 < W) (hH : 0 < H) (masks : List Msk) (k : ℕ)
    (hne : masks ≠ [])
    (hall : ∀ mm ∈ masks, ∀ x, x < W → ∀ y, y < H → mm x y = 255) :
    commonOverlapRect W H masks k = Except.ok (0, 0, W, H) := by
  rcases masks with _ | ⟨m0, rest⟩
  · exact absurd rfl hne
  · unfold commonOverlapRect
    apply overlapCore_full hW hH
    intro x hx y hy
    rw [processedMask_all255 (hall m0 (List.mem_cons_self m0 rest))
      (fun mm hmm => hall mm (List.mem_cons_of_mem m0 hmm)) x hx y hy]
    omega

/-- An all-255 mask, `np.full((h, w), 255, np.uint8)` (core.py lines 148
and 193). -/
def fullMask : Msk := fun _ _ => 255

lemma fullMask_all255 {W H : ℕ} :
    ∀ mm ∈ [fullMask], ∀ x, x < W → ∀ y, y < H → mm x y = 255 := by
  intro mm hmm x hx y hy
  rcases List.mem_singleton.mp hmm with rfl
  rfl

lemma reachB_self {W H : ℕ} {m : Msk} {p : ℕ × ℕ} : reachB W H m p p = true :=
  decide_eq_true reach_self

lemma bestFold_mem {W H : ℕ} {m : Msk} :
    ∀ (l : List (ℕ × ℕ)) (b : ℕ × ℕ) (c : ℕ),
      (bestFold W H m (b, c) l).1 = b ∨ (bestFold W H m (b, c) l).1 ∈ l := by
  intro l
  induction l with
  | nil =>
    intro b c
    exact Or.inl rfl
  | cons r rs ih =>
    intro b c
    simp only [bestFold]
    by_cases hc : (compList W H m r).length > c
    · rw [if_pos hc]
      rcases ih r _ with h | h
      · refine Or.inr ?_
        rw [h]
        exact List.mem_cons_self r rs
      · exact Or.inr (List.mem_cons_of_mem r h)
    · rw [if_neg hc]
      rcases ih b c with h | h
      · exact Or.inl h
      · exact Or.inr (List.mem_cons_of_mem r h)

lemma overlapCore_ok_of_fg {W H : ℕ} {m : Msk} {x y : ℕ} (hx : x < W) (hy : y < H)
    (hv : 0 < m x y) : isErr (overlapCore W H m) = false := by
  unfold overlapCore
  split
  · next heq => exact absurd heq (reps_ne_nil hx hy hv)
  · next r0 rs heq =>
    split
    · next heq2 =>
      exfalso
      have hbm : (bestFold W H m (r0, 0) (r0 :: rs)).1 ∈ r0 :: rs := by
        rcases @bestFold_mem W H m (r0 :: rs) r0 0 with h | h
        · rw [h]
          exact List.mem_cons_self r0 rs
        · exact h
      have hrep : (bestFold W H m (r0, 0) (r0 :: rs)).1 ∈ repsList W H m := heq ▸ hbm
      have hfg : fgB W H m (bestFold W H m (r0, 0) (r0 :: rs)).1 = true :=
        (Bool.and_eq_true_iff.mp (List.mem_filter.mp hrep).2).1
      have hmem : (bestFold W H m (r0, 0) (r0 :: rs)).1 ∈
          compList W H m (bestFold W H m (r0, 0) (r0 :: rs)).1 := by
        apply List.mem_filter.mpr
        refine ⟨(List.mem_filter.mp hrep).1, ?_⟩
        rw [hfg, reachB_self]
        rfl
      rw [heq2] at hmem
      cases hmem
    · next => rfl

/-- C6: `_common_overlap_rect` reports an error exactly when the combined
(AND-ed and, when requested, eroded) mask has no foreground pixel; it
also errors on an empty mask list.  The "degenerate bounding box" error
of the source (line 95-96) is unreachable: whenever foreground exists the
selected component is non-empty, so the box always has positive extent
(that part is theorem `overlap_rect_in_bounds`). -/
theorem overlap_error_iff_no_foreground (W H k : ℕ) (m0 : Msk) (rest : List Msk) :
    isErr (commonOverlapRect W H [] k) = true ∧
    (isErr (commonOverlapRect W H (m0 :: rest) k) = true ↔
      ∀ x, x < W → ∀ y, y < H → processedMask W H m0 rest k x y = 0) := by
  refine ⟨rfl, ?_⟩
  constructor
  · intro herr
    by_contra hnfg
    push_neg at hnfg
    obtain ⟨x, hx, y, hy, hv⟩ := hnfg
    have hok : isErr (overlapCore W H (processedMask W H m0 rest k)) = false :=
      overlapCore_ok_of_fg hx hy (Nat.pos_of_ne_zero hv)
    have hco : commonOverlapRect W H (m0 :: rest) k =
        overlapCore W H (processedMask W H m0 rest k) := rfl
    rw [hco] at herr
    rw [herr] at hok
    cases hok
  · intro hnofg
    have hreps : repsList W H (processedMask W H m0 rest k) = [] := by
      unfold repsList
      rw [List.filter_eq_nil_iff]
      intro p hp
      have hfg : fgB W H (processedMask W H m0 rest k) p = false := by
        rw [← Bool.not_eq_true, fgB_eq_true]
        rintro ⟨h1, h2, h3⟩
        rw [hnofg p.1 h1 p.2 h2] at h3
        exact absurd h3 (lt_irrefl 0)
      simp [isRepB, hfg]
    have hco : commonOverlapRect W H (m0 :: rest) k =
        overlapCore W H (processedMask W H m0 rest k) := rfl
    rw [hco]
    unfold overlapCore
    split
    · next => rfl
    · next r0 rs heq =>
      rw [hreps] at heq
      cases heq

/-- Witness for `overlap_error_iff_no_foreground` at a concrete 1×1 mask
list: the instantiated statement evaluates on both sides. -/
theorem overlap_error_iff_no_foreground_witness :
    isErr (commonOverlapRect 1 1 [] 0) = true ∧
    (isErr (commonOverlapRect 1 1 [(fun _ _ => 0 : Msk)] 0) = true ↔
      ∀ x, x < 1 → ∀ y, y < 1 → processedMask 1 1 (fun _ _ => 0) [] 0 x y = 0) :=
  overlap_error_iff_no_foreground 1 1 0 (fun _ _ => 0) []

/-- C10: whenever `_common_overlap_rect` returns a rectangle
`(x, y, w, h)` on masks of common size `W × H`, the rectangle is
non-degenerate and in-bounds, so the crop `img[y:y+h, x:x+w]` of any
aligned image on the same canvas is non-empty and in-bounds. -/
theorem overlap_rect_in_bounds (W H k : ℕ) (masks : List Msk) (x y w h : ℕ)
    (hok : commonOverlapRect W H masks k = Except.ok (x, y, w, h)) :
    x + w ≤ W ∧ y + h ≤ H ∧ 1 ≤ w ∧ 1 ≤ h := by
  rcases masks with _ | ⟨m0, rest⟩
  · cases hok
  · have hok2 : overlapCore W H (processedMask W H m0 rest k) =
        Except.ok (x, y, w, h) := hok
    unfold overlapCore at hok2
    split at hok2
    · cases hok2
    · next r0 rs heq =>
      split at hok2
      · cases hok2
      · next c0 cs heq2 =>
        injection hok2 with hok3
        simp only [Prod.mk.injEq] at hok3
        obtain ⟨h1, h2, h3, h4⟩ := hok3
        have hbnd : ∀ q ∈ c0 :: cs, q.1 < W ∧ q.2 < H := by
          intro q hq
          have hqc : q ∈ compList W H (processedMask W H m0 rest k)
              (bestFold W H (processedMask W H m0 rest k) (r0, 0) (r0 :: rs)).1 :=
            heq2 ▸ hq
          exact mem_pixList.mp (List.mem_filter.mp hqc).1
        have hc0 := hbnd c0 (List.mem_cons_self c0 cs)
        have hxA : List.foldl min c0.1 (List.map Prod.fst (c0 :: cs)) ≤ c0.1 :=
          foldl_min_le (Or.inl rfl)
        have hxB : c0.1 ≤ List.foldl max c0.1 (List.map Prod.fst (c0 :: cs)) :=
          le_foldl_max (Or.inl rfl)
        have hxW : List.foldl max c0.1 (List.map Prod.fst (c0 :: cs)) ≤ W - 1 := by
          apply foldl_max_le
          · omega
          · intro b hb
            rcases List.mem_map.mp hb with ⟨q, hq, rfl⟩
            have := (hbnd q hq).1
            omega
        have hyA : List.foldl min c0.2 (List.map Prod.snd (c0 :: cs)) ≤ c0.2 :=
          foldl_min_le (Or.inl rfl)
        have hyB : c0.2 ≤ List.foldl max c0.2 (List.map Prod.snd (c0 :: cs)) :=
          le_foldl_max (Or.inl rfl)
        have hyH : List.foldl max c0.2 (List.map Prod.snd (c0 :: cs)) ≤ H - 1 := by
          apply foldl_max_le
          · omega
          · intro b hb
            rcases List.mem_map.mp hb with ⟨q, hq, rfl⟩
            have := (hbnd q hq).2
            omega
        omega

/-- Witness for `overlap_rect_in_bounds`: the resolver on a single fully
valid 2×2 mask returns (0, 0, 2, 2) and the bounds hold there. -/
theorem overlap_rect_in_bounds_witness : 0 + 2 ≤ 2 ∧ 0 + 2 ≤ 2 ∧ 1 ≤ 2 ∧ 1 ≤ 2 :=
  overlap_rect_in_bounds 2 2 0 [fullMask] 0 0 2 2
    (overlap_all255 (by omega) (by omega) [fullMask] 0 (by simp) fullMask_all255)

/-- C4: on a non-empty list of fully valid masks of common size `W × H`
(positive dimensions) and erosion radius 0, `_common_overlap_rect`
returns exactly `(0, 0, W, H)`. -/
theorem overlap_fullmask_erode_zero (W H : ℕ) (hW : 0 < W) (hH : 0 < H)
    (masks : List Msk) (hne : masks ≠ [])
    (hall : ∀ mm ∈ masks, ∀ x, x < W → ∀ y, y < H → mm x y = 255) :
    commonOverlapRect W H masks 0 = Except.ok (0, 0, W, H) :=
  overlap_all255 hW hH masks 0 hne hall

/-- Witness for `overlap_fullmask_erode_zero` on a single 2×2 mask. -/
theorem overlap_fullmask_erode_zero_witness :
    commonOverlapRect 2 2 [fullMask] 0 = Except.ok (0, 0, 2, 2) :=
  overlap_fullmask_erode_zero 2 2 (by omega) (by omega) [fullMask] (by simp)
    fullMask_all255

/-- C1 (amended): on fully valid masks of common positive size `W × H`
and ANY erosion radius `r > 0`, `_common_overlap_rect` returns the full
rectangle `(0, 0, W, H)` — no inset occurs, because `cv.erode`'s default
border handling treats out-of-image window positions as maximal, so an
all-255 mask is unchanged by the erosion step. -/
theorem overlap_fullmask_erode_pos (W H k : ℕ) (hW : 0 < W) (hH : 0 < H)
    (_hk : 0 < k) (masks : List Msk) (hne : masks ≠ [])
    (hall : ∀ mm ∈ masks, ∀ x, x < W → ∀ y, y < H → mm x y = 255) :
    commonOverlapRect W H masks k = Except.ok (0, 0, W, H) :=
  overlap_all255 hW hH masks k hne hall

/-- Witness for `overlap_fullmask_erode_pos` on a single 3×3 mask with
erosion radius 2. -/
theorem overlap_fullmask_erode_pos_witness :
    commonOverlapRect 3 3 [fullMask] 2 = Except.ok (0, 0, 3, 3) :=
  overlap_fullmask_erode_pos 3 3 2 (by omega) (by omega) (by omega) [fullMask]
    (by simp) fullMask_all255

/-- C1 counterexample: on a fully valid 12×12 mask with erosion radius 4
the resolver returns the FULL rectangle `(0, 0, 12, 12)`; the claimed
result `≈ (4, 4, 12 - 8, 12 - 8)` fails even granting a tolerance of two
pixels (half the radius) in each component, since the returned `x` is 0. -/
theorem overlap_fullmask_inset_counterexample :
    commonOverlapRect 12 12 [fullMask] 4 = Except.ok (0, 0, 12, 12) ∧
    ¬ (∀ x y w h : ℕ,
        commonOverlapRect 12 12 [fullMask] 4 = Except.ok (x, y, w, h) →
        2 ≤ x ∧ 2 ≤ y ∧ w ≤ 10 ∧ h ≤ 10) := by
  have hful : commonOverlapRect 12 12 [fullMask] 4 = Except.ok (0, 0, 12, 12) :=
    overlap_all255 (by omega) (by omega) [fullMask] 4 (by simp) fullMask_all255
  refine ⟨hful, fun hcl => ?_⟩
  have := (hcl 0 0 12 12 hful).1
  omega

/-! ### The warper: `cv.warpAffine` over exact rational coordinates

A 2×3 affine matrix `[[a, b, c], [d, e, f]]` maps `(x, y)` to
`(a x + b y + c, d x + e y + f)`.  `cv.warpAffine` without
`WARP_INVERSE_MAP` first inverts the matrix (`cv::invertAffineTransform`)
and then samples the source at the inverse-mapped position of every
destination pixel.  OpenCV's fixed-point quantisation of coordinates and
interpolation weights is idealised to exact rational arithmetic. -/

/-- A 2×3 affine matrix over the rationals. -/
structure Aff where
  a : ℚ
  b : ℚ
  c : ℚ
  d : ℚ
  e : ℚ
  f : ℚ

/-- The identity transform `np.float32([[1,0,0],[0,1,0]])` (core.py line
142). -/
def idAff : Aff := ⟨1, 0, 0, 0, 1, 0⟩

/-- `cv::invertAffineTransform`: invert the 2×2 block and the translation;
a singular matrix inverts to the zero matrix (OpenCV sets `D = 0` there). -/
def invertAffine (M : Aff) : Aff :=
  -- determinant of the 2x2 linear block; OpenCV: D = D != 0 ? 1/D : 0
  (fun idet =>
    (fun ia ib id' ie =>
      ⟨ia, ib, -(ia * M.c + ib * M.f), id', ie, -(id' * M.c + ie * M.f)⟩)
      (M.e * idet) (-M.b * idet) (-M.d * idet) (M.a * idet))
  (if M.a * M.e - M.b * M.d = 0 then 0 else (M.a * M.e - M.b * M.d)⁻¹)

/-- Apply an affine matrix to a point. -/
def affApply (M : Aff) (x y : ℚ) : ℚ × ℚ :=
  (M.a * x + M.b * y + M.c, M.d * x + M.e * y + M.f)

/-- Source pixel lookup with constant border value `bv` (`BORDER_CONSTANT`). -/
def pixAt (src : Msk) (W H : ℕ) (bv : ℚ) (i j : ℤ) : ℚ :=
  if 0 ≤ i ∧ i < (W : ℤ) ∧ 0 ≤ j ∧ j < (H : ℤ) then (src i.toNat j.toNat : ℚ)
  else bv

/-- `saturate_cast<uchar>` after rounding. -/
def sat255 (v : ℤ) : ℕ := (max 0 (min 255 v)).toNat

/-- Bilinear sample (`INTER_LINEAR`) of the source at rational position
`(sx, sy)` with constant border value `bv`. -/
def bilinearAt (src : Msk) (W H : ℕ) (bv : ℚ) (sx sy : ℚ) : ℕ :=
  sat255 (round
    ((1 - (sx - ⌊sx⌋)) * (1 - (sy - ⌊sy⌋)) * pixAt src W H bv ⌊sx⌋ ⌊sy⌋ +
     (sx - ⌊sx⌋) * (1 - (sy - ⌊sy⌋)) * pixAt src W H bv (⌊sx⌋ + 1) ⌊sy⌋ +
     (1 - (sx - ⌊sx⌋)) * (sy - ⌊sy⌋) * pixAt src W H bv ⌊sx⌋ (⌊sy⌋ + 1) +
     (sx - ⌊sx⌋) * (sy - ⌊sy⌋) * pixAt src W H bv (⌊sx⌋ + 1) (⌊sy⌋ + 1)))

/-- Nearest-neighbour sample (`INTER_NEAREST`) at rational position
`(sx, sy)` with constant border value `bv`. -/
def nearestAt (src : Msk) (W H : ℕ) (bv : ℕ) (sx sy : ℚ) : ℕ :=
  if 0 ≤ round sx ∧ round sx < (W : ℤ) ∧ 0 ≤ round sy ∧ round sy < (H : ℤ) then
    src (round sx).toNat (round sy).toNat
  else bv

/-- `cv.warpAffine(img, M, (dstW, dstH), flags=cv.INTER_LINEAR,
borderMode=cv.BORDER_CONSTANT, borderValue=bv)` (core.py lines 185-190),
one colour channel. -/
def warpAffineLinear (src : Msk) (srcW srcH : ℕ) (M : Aff) (dstW dstH : ℕ)
    (bv : ℚ) : Msk :=
  fun x y =>
    bilinearAt src srcW srcH bv (affApply (invertAffine M) (x : ℚ) (y : ℚ)).1
      (affApply (invertAffine M) (x : ℚ) (y : ℚ)).2

/-- `cv.warpAffine(src_mask, M, (dstW, dstH), flags=cv.INTER_NEAREST,
borderMode=cv.BORDER_CONSTANT, borderValue=0)` (core.py lines 194-199),
with a general border value. -/
def warpAffineNearest (src : Msk) (srcW srcH : ℕ) (M : Aff) (dstW dstH : ℕ)
    (bv : ℕ) : Msk :=
  fun x y =>
    nearestAt src srcW srcH bv (affApply (invertAffine M) (x : ℚ) (y : ℚ)).1
      (affApply (invertAffine M) (x : ℚ) (y : ℚ)).2

lemma invertAffine_id : invertAffine idAff = idAff := by
  unfold invertAffine idAff
  norm_num

lemma affApply_id (x y : ℚ) : affApply idAff x y = (x, y) := by
  unfold affApply idAff
  norm_num

/-- C3: warping with the identity similarity transform onto a canvas of
the source's own size reproduces every pixel exactly, and the warped
validity mask (nearest-neighbour warp of the all-255 source mask) is 255
at every canvas pixel. -/
theorem warp_identity_exact (src : Msk) (W H : ℕ) (hb : ∀ x y, src x y ≤ 255)
    (x y : ℕ) (hx : x < W) (hy : y < H) :
    warpAffineLinear src W H idAff W H 0 x y = src x y ∧
    warpAffineNearest fullMask W H idAff W H 0 x y = 255 := by
  constructor
  · unfold warpAffineLinear
    rw [invertAffine_id, affApply_id]
    unfold bilinearAt
    rw [Int.floor_natCast, Int.floor_natCast]
    simp only [Int.cast_natCast, sub_self, zero_mul, mul_zero, sub_zero, one_mul,
      add_zero, zero_add]
    have hin : (0 : ℤ) ≤ (x : ℤ) ∧ (x : ℤ) < (W : ℤ) ∧ (0 : ℤ) ≤ (y : ℤ) ∧
        (y : ℤ) < (H : ℤ) := by
      refine ⟨Int.natCast_nonneg x, ?_, Int.natCast_nonneg y, ?_⟩
      · exact_mod_cast hx
      · exact_mod_cast hy
    rw [pixAt, if_pos hin, Int.toNat_natCast, Int.toNat_natCast, round_natCast]
    unfold sat255
    have := hb x y
    omega
  · unfold warpAffineNearest
    rw [invertAffine_id, affApply_id]
    unfold nearestAt
    rw [round_natCast, round_natCast]
    have hin : (0 : ℤ) ≤ (x : ℤ) ∧ (x : ℤ) < (W : ℤ) ∧ (0 : ℤ) ≤ (y : ℤ) ∧
        (y : ℤ) < (H : ℤ) := by
      refine ⟨Int.natCast_nonneg x, ?_, Int.natCast_nonneg y, ?_⟩
      · exact_mod_cast hx
      · exact_mod_cast hy
    rw [if_pos hin]
    rfl

/-- Witness for `warp_identity_exact`: a constant 7-valued 2×2 image. -/
theorem warp_identity_exact_witness :
    warpAffineLinear (fun _ _ => 7) 2 2 idAff 2 2 0 1 1 = (fun _ _ => 7 : Msk) 1 1 ∧
    warpAffineNearest fullMask 2 2 idAff 2 2 0 1 1 = 255 :=
  warp_identity_exact (fun _ _ => 7) 2 2 (fun _ _ => (by decide : (7 : ℕ) ≤ 255)) 1 1
    (by omega) (by omega)

/-- C9: the validity mask produced by the warper is strictly binary —
the nearest-neighbour warp of the all-255 source mask with constant
border 0 yields only the values 0 and 255 at every canvas pixel, for
every transform — and the reference image's own mask is the all-255
mask. -/
theorem warped_mask_binary (M : Aff) (srcW srcH dstW dstH : ℕ) (x y u v : ℕ) :
    (warpAffineNearest fullMask srcW srcH M dstW dstH 0 x y = 0 ∨
      warpAffineNearest fullMask srcW srcH M dstW dstH 0 x y = 255) ∧
    fullMask u v = 255 := by
  constructor
  · unfold warpAffineNearest nearestAt
    split
    · exact Or.inr rfl
    · exact Or.inl rfl
  · rfl

/-! ### The descriptor matcher: `_match_orb` -/

/-- Hamming distance between binary descriptors (`cv.NORM_HAMMING`). -/
def hamming (a b : List Bool) : ℕ := (List.zipWith (fun u v => u != v) a b).count true

/-- Distance from query descriptor `q` to the `j`-th descriptor of `ds`. -/
def distTo (q : List Bool) (ds : List (List Bool)) (j : ℕ) : ℕ := hamming q (ds.getD j [])

/-- First index attaining the minimal value of `f` on `l`, with its value. -/
def argminList (f : ℕ → ℕ) : List ℕ → Option (ℕ × ℕ)
  | [] => none
  | j :: rest =>
    match argminList f rest with
    | none => some (j, f j)
    | some (k, v) => if f j ≤ v then some (j, f j) else some (k, v)

/-- A `bf.knnMatch(d1, d2, k=2)` entry for one query descriptor: nearest
train index/distance and second-nearest train index/distance, selected
by brute force over all train descriptors. -/
def best2 (q : List Bool) (ds : List (List Bool)) : Option ((ℕ × ℕ) × (ℕ × ℕ)) :=
  match argminList (distTo q ds) (List.range ds.length) with
  | none => none
  | some (j1, s1) =>
    match argminList (distTo q ds) ((List.range ds.length).filter (fun j => j != j1)) with
    | none => none
    | some (j2, s2) => some ((j1, s1), (j2, s2))

/-- A `cv.DMatch`: query index, train index, distance. -/
structure DMatch where
  queryIdx : ℕ
  trainIdx : ℕ
  dist : ℕ
deriving DecidableEq

/-- `_match_orb(d1, d2, ratio)` (core.py lines 31-39): 2-nearest-neighbour
Hamming matching of each query descriptor of `d1` against `d2`, then
Lowe's ratio test `m.distance < ratio * n.distance`.  With fewer than two
train descriptors the unpacking `for m, n in knn` raises, modelled as
`none`. -/
def matchOrb (d1 d2 : List (List Bool)) (ratio : ℚ) : Option (List DMatch) :=
  if d2.length < 2 then none
  else
    some ((List.range d1.length).filterMap fun i =>
      match best2 (d1.getD i []) d2 with
      | none => none
      | some ((j1, s1), (_, s2)) =>
        if (s1 : ℚ) < ratio * (s2 : ℚ) then some ⟨i, j1, s1⟩ else none)

/-- `(j, s)` is a best match for query `q` among `ds`: a valid train
index at the recorded Hamming distance, minimal over the train set. -/
def IsBestMatch (q : List Bool) (ds : List (List Bool)) (j s : ℕ) : Prop :=
  j < ds.length ∧ s = hamming q (ds.getD j []) ∧
    ∀ k, k < ds.length → s ≤ hamming q (ds.getD k [])

/-- `(j2, s2)` is a second-best match for query `q` among `ds` given the
best index `j1`: minimal over all train indices other than `j1`. -/
def IsSecondBest (q : List Bool) (ds : List (List Bool)) (j1 j2 s2 : ℕ) : Prop :=
  j2 < ds.length ∧ j2 ≠ j1 ∧ s2 = hamming q (ds.getD j2 []) ∧
    ∀ k, k < ds.length → k ≠ j1 → s2 ≤ hamming q (ds.getD k [])

/-- Characterisation of `_match_orb`'s output: it succeeds with a list
that is ordered by query (reference) index, sound — every emitted match
is a best match of its query whose distance beats `ratio` times the
second-best distance — and complete — every query index whose best and
second-best distances pass the ratio test is emitted. -/
def LoweSpec (d1 d2 : List (List Bool)) (r : ℚ) : Prop :=
  ∃ l, matchOrb d1 d2 r = some l ∧
    l.Pairwise (fun m m2 => m.queryIdx < m2.queryIdx) ∧
    (∀ m ∈ l, m.queryIdx < d1.length ∧
      IsBestMatch (d1.getD m.queryIdx []) d2 m.trainIdx m.dist ∧
      ∃ j2 s2, IsSecondBest (d1.getD m.queryIdx []) d2 m.trainIdx j2 s2 ∧
        (m.dist : ℚ) < r * (s2 : ℚ)) ∧
    (∀ i, i < d1.length → ∀ j1 s1 j2 s2,
      IsBestMatch (d1.getD i []) d2 j1 s1 →
      IsSecondBest (d1.getD i []) d2 j1 j2 s2 →
      (s1 : ℚ) < r * (s2 : ℚ) →
      ∃ m ∈ l, m.queryIdx = i ∧ m.dist = s1)

lemma argminList_eq_none {f : ℕ → ℕ} : ∀ {l : List ℕ}, argminList f l = none → l = []
  | [], _ => rfl
  | a :: rest, h => by
    unfold argminList at h
    cases hrec : argminList f rest with
    | none =>
      simp only [hrec] at h
      cases h
    | some kv =>
      obtain ⟨k, v⟩ := kv
      simp only [hrec] at h
      by_cases hle : f a ≤ v
      · rw [if_pos hle] at h
        cases h
      · rw [if_neg hle] at h
        cases h

lemma argminList_spec {f : ℕ → ℕ} : ∀ (l : List ℕ) (j v : ℕ),
    argminList f l = some (j, v) → j ∈ l ∧ v = f j ∧ ∀ k ∈ l, v ≤ f k := by
  intro l
  induction l with
  | nil =>
    intro j v h
    cases h
  | cons a rest ih =>
    intro j v h
    unfold argminList at h
    cases hrec : argminList f rest with
    | none =>
      simp only [hrec] at h
      have hrest := argminList_eq_none hrec
      injection h with h2
      rw [Prod.mk.injEq] at h2
      obtain ⟨rfl, rfl⟩ := h2
      subst hrest
      refine ⟨List.mem_cons_self a [], rfl, ?_⟩
      intro k hk
      rcases List.mem_cons.mp hk with rfl | hk
      · exact le_rfl
      · cases hk
    | some kv =>
      obtain ⟨k, v2⟩ := kv
      simp only [hrec] at h
      obtain ⟨hkmem, hkval, hkmin⟩ := ih k v2 hrec
      by_cases hle : f a ≤ v2
      · rw [if_pos hle] at h
        injection h with h2
        rw [Prod.mk.injEq] at h2
        obtain ⟨rfl, rfl⟩ := h2
        refine ⟨List.mem_cons_self a rest, rfl, ?_⟩
        intro k2 hk2
        rcases List.mem_cons.mp hk2 with rfl | hk2
        · exact le_rfl
        · exact le_trans hle (hkmin k2 hk2)
      · rw [if_neg hle] at h
        injection h with h2
        rw [Prod.mk.injEq] at h2
        obtain ⟨rfl, rfl⟩ := h2
        refine ⟨List.mem_cons_of_mem a hkmem, hkval, ?_⟩
        intro k2 hk2
        rcases List.mem_cons.mp hk2 with rfl | hk2
        · omega
        · exact hkmin k2 hk2

lemma argminList_isSome {f : ℕ → ℕ} {l : List ℕ} (h : l ≠ []) :
    ∃ j v, argminList f l = some (j, v) := by
  cases hrec : argminList f l with
  | none => exact absurd (argminList_eq_none hrec) h
  | some kv =>
    obtain ⟨k, v⟩ := kv
    exact ⟨k, v, rfl⟩

lemma exists_other {n j1 : ℕ} (h : 2 ≤ n) :
    ∃ j, j ∈ (List.range n).filter (fun j => j != j1) := by
  by_cases h0 : j1 = 0
  · exact ⟨1, List.mem_filter.mpr ⟨List.mem_range.mpr (by omega), by simp [h0]⟩⟩
  · refine ⟨0, List.mem_filter.mpr ⟨List.mem_range.mpr (by omega), ?_⟩⟩
    simp only [bne_iff_ne, ne_eq]
    omega

lemma best2_spec {q : List Bool} {ds : List (List Bool)} (h2 : 2 ≤ ds.length) :
    ∃ j1 s1 j2 s2, best2 q ds = some ((j1, s1), (j2, s2)) ∧
      IsBestMatch q ds j1 s1 ∧ IsSecondBest q ds j1 j2 s2 := by
  have hne : List.range ds.length ≠ [] := by
    intro hc
    have := List.range_eq_nil.mp hc
    omega
  obtain ⟨j1, s1, hmin⟩ := @argminList_isSome (distTo q ds) _ hne
  obtain ⟨hj1mem, hs1, hmin1⟩ := argminList_spec _ _ _ hmin
  obtain ⟨j0, hj0⟩ := @exists_other ds.length j1 h2
  obtain ⟨j2, s2, hmin2'⟩ := @argminList_isSome (distTo q ds) _ (List.ne_nil_of_mem hj0)
  obtain ⟨hj2mem, hs2, hmin2⟩ := argminList_spec _ _ _ hmin2'
  refine ⟨j1, s1, j2, s2, ?_, ?_, ?_⟩
  · unfold best2
    simp only [hmin, hmin2']
  · exact ⟨List.mem_range.mp hj1mem, hs1, fun k hk => hmin1 k (List.mem_range.mpr hk)⟩
  · have hj2r := List.mem_filter.mp hj2mem
    refine ⟨List.mem_range.mp hj2r.1, by simpa using hj2r.2, hs2, ?_⟩
    intro k hk hkne
    exact hmin2 k (List.mem_filter.mpr ⟨List.mem_range.mpr hk, by simp [hkne]⟩)

lemma secondBest_val_eq {q : List Bool} {ds : List (List Bool)}
    {j1 s1 j2 s2 j1' s1' j2' s2' : ℕ}
    (hb : IsBestMatch q ds j1 s1) (hs : IsSecondBest q ds j1 j2 s2)
    (hb' : IsBestMatch q ds j1' s1') (hs' : IsSecondBest q ds j1' j2' s2') :
    s1 = s1' ∧ s2 = s2' := by
  obtain ⟨hj1, hv1, hm1⟩ := hb
  obtain ⟨hj2, hne2, hv2, hm2⟩ := hs
  obtain ⟨hj1', hv1', hm1'⟩ := hb'
  obtain ⟨hj2', hne2', hv2', hm2'⟩ := hs'
  have ha : s1 ≤ hamming q (ds.getD j1' []) := hm1 j1' hj1'
  have hb : s1' ≤ hamming q (ds.getD j1 []) := hm1' j1 hj1
  rw [← hv1'] at ha
  rw [← hv1] at hb
  have hs1eq : s1 = s1' := le_antisymm ha hb
  refine ⟨hs1eq, ?_⟩
  by_cases hjj : j1 = j1'
  · subst hjj
    have hc : s2 ≤ hamming q (ds.getD j2' []) := hm2 j2' hj2' hne2'
    have hd : s2' ≤ hamming q (ds.getD j2 []) := hm2' j2 hj2 hne2
    rw [← hv2'] at hc
    rw [← hv2] at hd
    exact le_antisymm hc hd
  · have hc : s2 ≤ hamming q (ds.getD j1' []) := hm2 j1' hj1' (fun h => hjj h.symm)
    rw [← hv1'] at hc
    have hd : s1 ≤ hamming q (ds.getD j2 []) := hm1 j2 hj2
    rw [← hv2] at hd
    have he : s2' ≤ hamming q (ds.getD j1 []) := hm2' j1 hj1 hjj
    rw [← hv1] at he
    have hf : s1' ≤ hamming q (ds.getD j2' []) := hm1' j2' hj2'
    rw [← hv2'] at hf
    omega

/-- C5: `_match_orb` on descriptor sets with at least two members each
returns exactly the best matches passing Lowe's ratio test, in reference
order; determinism is immediate since `matchOrb` is a pure function of
its arguments. -/
theorem matchOrb_lowe (d1 d2 : List (List Bool)) (r : ℚ)
    (h1 : 2 ≤ d1.length) (h2 : 2 ≤ d2.length) : LoweSpec d1 d2 r := by
  unfold LoweSpec matchOrb
  rw [if_neg (by omega : ¬ d2.length < 2)]
  refine ⟨_, rfl, ?_, ?_, ?_⟩
  · refine List.Pairwise.filterMap _ ?_ (List.pairwise_lt_range d1.length)
    intro i i2 hlt m hm m2 hm2
    rw [Option.mem_def] at hm hm2
    have hqm : m.queryIdx = i := by
      cases hb : best2 (d1.getD i []) d2 with
      | none =>
        simp only [hb] at hm
        cases hm
      | some p =>
        obtain ⟨⟨j1, s1⟩, ⟨j2, s2⟩⟩ := p
        simp only [hb] at hm
        by_cases hc : (s1 : ℚ) < r * (s2 : ℚ)
        · rw [if_pos hc] at hm
          injection hm with hm3
          rw [← hm3]
        · rw [if_neg hc] at hm
          cases hm
    have hqm2 : m2.queryIdx = i2 := by
      cases hb : best2 (d1.getD i2 []) d2 with
      | none =>
        simp only [hb] at hm2
        cases hm2
      | some p =>
        obtain ⟨⟨j1, s1⟩, ⟨j2, s2⟩⟩ := p
        simp only [hb] at hm2
        by_cases hc : (s1 : ℚ) < r * (s2 : ℚ)
        · rw [if_pos hc] at hm2
          injection hm2 with hm3
          rw [← hm3]
        · rw [if_neg hc] at hm2
          cases hm2
    rw [hqm, hqm2]
    exact hlt
  · intro m hm
    rcases List.mem_filterMap.mp hm with ⟨i, hi, hfi⟩
    obtain ⟨j1, s1, j2, s2, hb2, hbm, hsb⟩ := @best2_spec (d1.getD i []) d2 h2
    simp only [hb2] at hfi
    by_cases hc : (s1 : ℚ) < r * (s2 : ℚ)
    · rw [if_pos hc] at hfi
      injection hfi with hfi2
      rw [← hfi2]
      exact ⟨List.mem_range.mp hi, hbm, j2, s2, hsb, hc⟩
    · rw [if_neg hc] at hfi
      cases hfi
  · intro i hi j1 s1 j2 s2 hbm hsb hrt
    obtain ⟨j1', s1', j2', s2', hb2, hbm', hsb'⟩ := @best2_spec (d1.getD i []) d2 h2
    obtain ⟨hs1eq, hs2eq⟩ := secondBest_val_eq hbm hsb hbm' hsb'
    have hc : (s1' : ℚ) < r * (s2' : ℚ) := by
      rw [← hs1eq, ← hs2eq]
      exact hrt
    refine ⟨⟨i, j1', s1'⟩, ?_, rfl, hs1eq.symm⟩
    apply List.mem_filterMap.mpr
    refine ⟨i, List.mem_range.mpr hi, ?_⟩
    simp only [hb2]
    rw [if_pos hc]

/-- Witness for `matchOrb_lowe` on concrete two-element descriptor sets. -/
theorem matchOrb_lowe_witness :
    LoweSpec [[true, true], [false, false]] [[true, true], [false, true]] (3 / 4) :=
  matchOrb_lowe [[true, true], [false, false]] [[true, true], [false, true]] (3 / 4)
    (by decide) (by decide)

/-! ### The pipeline orchestrator: `align` (core.py lines 103-273)

The control flow of `align` is embedded with the outcome of the OpenCV
detector, matcher and estimator on each input file supplied as an oracle
(`FileSpec`); the overlap computation is the embedded
`commonOverlapRect`.  The Python-scoping detail that decides claim C2 is
modelled exactly: `all_ref_indices` is a local variable first assigned
inside the per-candidate success branch (line 217), so after a loop in
which no candidate succeeded it is unbound and reading it at line 222
raises an uncaught `UnboundLocalError`/`NameError`; this is modelled by
an `Option` that starts out `none`. -/

/-- Oracle for one input file: path validation, decoding, feature
detection, and (for candidates) ratio-test survivors and estimation
outcome, plus the warped validity mask the warper would produce. -/
structure FileSpec where
  /-- `p.is_file()` (line 112) -/
  isFile : Bool
  /-- `cv.imread` succeeds (line 124-125) -/
  loads : Bool
  /-- image width -/
  width : ℕ
  /-- image height -/
  height : ℕ
  /-- number of detected keypoints (`len(kp)`) -/
  kp : ℕ
  /-- descriptors are not `None` -/
  hasDesc : Bool
  /-- reference keypoint indices of the good matches (`m.queryIdx`) -/
  goodIdx : List ℕ
  /-- `cv.estimateAffinePartial2D` returns a model (line 46-54) -/
  estOk : Bool
  /-- the warped validity mask of this candidate (lines 194-199) -/
  warpedMask : Msk

/-- Terminal outcome of a run of `align`: a `typer.Exit` with a code and
message, an uncaught Python exception, or normal completion.  `processed`
counts the candidate loop iterations that ran. -/
inductive Outcome where
  | exited (code : ℕ) (msg : String) (processed : ℕ)
  | crashed (msg : String) (processed : ℕ)
  | finished (results : List ℕ) (nAligned : ℕ) (rect : ℕ × ℕ × ℕ × ℕ) (processed : ℕ)

/-- The mutable state threaded through the candidate loop of `align`:
`sim_transforms_2x3`, `aligned_bgr` (as counts), `aligned_masks`,
`results` (as candidate indices), the possibly-unbound
`all_ref_indices`, and the number of iterations run. -/
structure LoopSt where
  nTransforms : ℕ
  aligned : ℕ
  masks : List Msk
  results : List ℕ
  allRef : Option (List ℕ)
  processed : ℕ

/-- One iteration of the candidate loop (core.py lines 154-220): skip on
insufficient features (`desc is None or len(kp) < 8`), skip on failed
estimation, otherwise append the transform, aligned image, warped mask
and result record and rebuild `all_ref_indices` from all results so far. -/
def candStep (s : LoopSt) (i : ℕ) (c : FileSpec) : LoopSt :=
  if c.hasDesc = false ∨ c.kp < 8 then
    { s with processed := s.processed + 1 }
  else if c.estOk = false then
    { s with processed := s.processed + 1 }
  else
    { nTransforms := s.nTransforms + 1,
      aligned := s.aligned + 1,
      masks := s.masks ++ [c.warpedMask],
      results := s.results ++ [i],
      allRef := some (s.allRef.getD [] ++ c.goodIdx),
      processed := s.processed + 1 }

/-- The candidate loop: `for idx in range(1, len(imgs))`. -/
def loopFold : ℕ → List FileSpec → LoopSt → LoopSt
  | _, [], s => s
  | i, c :: rest, s => loopFold (i + 1) rest (candStep s i c)

/-- Loop state before the first candidate (core.py lines 142-149): the
identity transform, the reference image, and the reference's all-255
validity mask. -/
def initSt (ref : FileSpec) : LoopSt :=
  { nTransforms := 1, aligned := 1, masks := [fullMask], results := [],
    allRef := none, processed := 0 }

/-- The code after the candidate loop (core.py lines 222-273): read
`all_ref_indices` (an uncaught `NameError` when no candidate succeeded,
since it was never assigned), compute the common overlap with erosion 50
(exit code 3 on failure), crop, and report missing matches with exit
code 2 — a line that is in fact unreachable, as the theorems show. -/
def alignPost (ref : FileSpec) (s : LoopSt) : Outcome :=
  match s.allRef with
  | none => Outcome.crashed "NameError: name all_ref_indices is not defined" s.processed
  | some _ =>
    match commonOverlapRect ref.width ref.height s.masks 50 with
    | Except.error _ => Outcome.exited 3 "ERROR computing overlap" s.processed
    | Except.ok r =>
      if s.results.isEmpty then
        Outcome.exited 2 "No valid matches found against the reference." s.processed
      else
        Outcome.finished s.results s.aligned r s.processed

/-- The `align` orchestrator (core.py lines 103-273): validate paths,
require at least two files, load all images, require at least 8 reference
keypoints, run the candidate loop, then the post-loop stage `alignPost`. -/
def alignModel (files : List FileSpec) : Outcome :=
  if files.any (fun c => !c.isFile) then
    Outcome.exited 1 "File not found" 0
  else if files.length < 2 then
    Outcome.exited 1 "Provide at least two images (first will be the reference)." 0
  else if files.any (fun c => !c.loads) then
    Outcome.exited 1 "Could not read image" 0
  else
    match files with
    | [] => Outcome.exited 1 "Provide at least two images (first will be the reference)." 0
    | ref :: cands =>
      if ref.hasDesc = false ∨ ref.kp < 8 then
        Outcome.exited 1 "Not enough features in reference image." 0
      else
        alignPost ref (loopFold 1 cands (initSt ref))

lemma loopFold_allfail : ∀ (l : List FileSpec) (i : ℕ) (s : LoopSt),
    (∀ c ∈ l, c.hasDesc = false ∨ c.kp < 8 ∨ c.estOk = false) →
    loopFold i l s = { s with processed := s.processed + l.length } := by
  intro l
  induction l with
  | nil =>
    intro i s h
    simp [loopFold]
  | cons c rest ih =>
    intro i s h
    have hstep : candStep s i c = { s with processed := s.processed + 1 } := by
      rcases h c (List.mem_cons_self c rest) with hd | hk | he
      · rw [candStep, if_pos (Or.inl hd)]
      · rw [candStep, if_pos (Or.inr hk)]
      · by_cases hfeat : c.hasDesc = false ∨ c.kp < 8
        · rw [candStep, if_pos hfeat]
        · rw [candStep, if_neg hfeat, if_pos he]
    show loopFold (i + 1) rest (candStep s i c) = _
    rw [hstep, ih (i + 1) _ (fun c2 hc2 => h c2 (List.mem_cons_of_mem c hc2))]
    simp [List.length_cons]
    omega

lemma any_isFile_false {files : List FileSpec}
    (h : ∀ c ∈ files, c.isFile = true ∧ c.loads = true) :
    files.any (fun c => !c.isFile) = false := by
  rw [List.any_eq_false]
  intro c hc
  rw [(h c hc).1]
  simp

lemma any_loads_false {files : List FileSpec}
    (h : ∀ c ∈ files, c.isFile = true ∧ c.loads = true) :
    files.any (fun c => !c.loads) = false := by
  rw [List.any_eq_false]
  intro c hc
  rw [(h c hc).2]
  simp

/-- C2 (as the code actually behaves): when at least two images load, the
reference has enough features, and EVERY candidate fails (insufficient
features or failed estimation), `align` does not reach the controlled
exit-code-2 report at line 271 — it crashes beforehand with an uncaught
`NameError` at line 222, because `all_ref_indices` is only ever assigned
inside the per-candidate success branch. -/
theorem align_all_candidates_fail_crashes (ref : FileSpec) (cands : List FileSpec)
    (hne : cands ≠ [])
    (hfiles : ∀ c ∈ ref :: cands, c.isFile = true ∧ c.loads = true)
    (hdesc : ref.hasDesc = true) (hkp : 8 ≤ ref.kp)
    (hfail : ∀ c ∈ cands, c.hasDesc = false ∨ c.kp < 8 ∨ c.estOk = false) :
    alignModel (ref :: cands) =
      Outcome.crashed "NameError: name all_ref_indices is not defined" cands.length := by
  have hlen : ¬ (ref :: cands).length < 2 := by
    have : 0 < cands.length := List.length_pos.mpr hne
    simp only [List.length_cons]
    omega
  have href : ¬ (ref.hasDesc = false ∨ ref.kp < 8) := by
    simp [hdesc]
    omega
  simp only [alignModel, any_isFile_false hfiles, any_loads_false hfiles,
    Bool.false_eq_true, if_false, if_neg hlen, if_neg href]
  rw [loopFold_allfail cands 1 (initSt ref) hfail]
  simp [alignPost, initSt]

/-- Witness for `align_all_candidates_fail_crashes`: one good reference
and one featureless candidate. -/
theorem align_all_candidates_fail_crashes_witness :
    alignModel
      [⟨true, true, 4, 4, 100, true, [], true, fullMask⟩,
       ⟨true, true, 4, 4, 0, false, [], false, fullMask⟩] =
      Outcome.crashed "NameError: name all_ref_indices is not defined" 1 :=
  align_all_candidates_fail_crashes
    ⟨true, true, 4, 4, 100, true, [], true, fullMask⟩
    [⟨true, true, 4, 4, 0, false, [], false, fullMask⟩]
    (List.cons_ne_nil _ _)
    (by
      intro c hc
      rcases List.mem_cons.mp hc with rfl | hc
      · exact ⟨rfl, rfl⟩
      · rcases List.mem_singleton.mp hc with rfl
        exact ⟨rfl, rfl⟩)
    rfl
    (by norm_num)
    (by
      intro c hc
      rcases List.mem_singleton.mp hc with rfl
      exact Or.inl rfl)

/-- C7: a candidate with enough features whose similarity estimation
fails is skipped — the loop state is unchanged except for the iteration
count (no transform, no aligned image, no mask, no result record, no
`all_ref_indices` assignment) — and the loop then continues with the
remaining candidates. -/
theorem estimation_failure_skips_candidate (s : LoopSt) (i : ℕ) (c : FileSpec)
    (rest : List FileSpec)
    (hdesc : c.hasDesc = true) (hkp : 8 ≤ c.kp) (hest : c.estOk = false) :
    candStep s i c = { s with processed := s.processed + 1 } ∧
    loopFold i (c :: rest) s = loopFold (i + 1) rest { s with processed := s.processed + 1 } := by
  have hstep : candStep s i c = { s with processed := s.processed + 1 } := by
    have hfeat : ¬ (c.hasDesc = false ∨ c.kp < 8) := by
      simp [hdesc]
      omega
    rw [candStep, if_neg hfeat, if_pos hest]
  refine ⟨hstep, ?_⟩
  show loopFold (i + 1) rest (candStep s i c) = _
  rw [hstep]

/-- Witness for `estimation_failure_skips_candidate` at a concrete state
and candidate. -/
theorem estimation_failure_skips_candidate_witness :
    candStep ⟨1, 1, [fullMask], [], none, 0⟩ 1
        ⟨true, true, 4, 4, 50, true, [3], false, fullMask⟩ =
      { (⟨1, 1, [fullMask], [], none, 0⟩ : LoopSt) with processed := 0 + 1 } ∧
    loopFold 1 [⟨true, true, 4, 4, 50, true, [3], false, fullMask⟩]
        ⟨1, 1, [fullMask], [], none, 0⟩ =
      loopFold 2 [] { (⟨1, 1, [fullMask], [], none, 0⟩ : LoopSt) with processed := 0 + 1 } :=
  estimation_failure_skips_candidate ⟨1, 1, [fullMask], [], none, 0⟩ 1
    ⟨true, true, 4, 4, 50, true, [3], false, fullMask⟩ [] rfl (by norm_num) rfl

/-- C8: when every file exists and loads but the reference yields no
descriptors or fewer than 8 keypoints, `align` exits fatally with the
insufficient-features report before any candidate is processed (zero
candidate-loop iterations). -/
theorem reference_insufficient_features_fatal (ref : FileSpec) (cands : List FileSpec)
    (hne : cands ≠ [])
    (hfiles : ∀ c ∈ ref :: cands, c.isFile = true ∧ c.loads = true)
    (href : ref.hasDesc = false ∨ ref.kp < 8) :
    alignModel (ref :: cands) =
      Outcome.exited 1 "Not enough features in reference image." 0 := by
  have hlen : ¬ (ref :: cands).length < 2 := by
    have : 0 < cands.length := List.length_pos.mpr hne
    simp only [List.length_cons]
    omega
  simp only [alignModel, any_isFile_false hfiles, any_loads_false hfiles,
    Bool.false_eq_true, if_false, if_neg hlen, if_pos href]

/-- Witness for `reference_insufficient_features_fatal`: a featureless
reference and a normal candidate. -/
theorem reference_insufficient_features_fatal_witness :
    alignModel
      [⟨true, true, 4, 4, 3, true, [], true, fullMask⟩,
       ⟨true, true, 4, 4, 100, true, [], true, fullMask⟩] =
      Outcome.exited 1 "Not enough features in reference image." 0 :=
  reference_insufficient_features_fatal
    ⟨true, true, 4, 4, 3, true, [], true, fullMask⟩
    [⟨true, true, 4, 4, 100, true, [], true, fullMask⟩]
    (List.cons_ne_nil _ _)
    (by
      intro c hc
      rcases List.mem_cons.mp hc with rfl | hc
      · exact ⟨rfl, rfl⟩
      · rcases List.mem_singleton.mp hc with rfl
        exact ⟨rfl, rfl⟩)
    (Or.inr (by norm_num))

end OpenAlign
